import Mathlib

/-!
Verification development for the `rust-tgc` compiler front end
(lexical scanner, string interner, AST, recursive-descent parser).

The Rust sources are embedded shallowly:

* `src/lexer.rs`  — `Tgc.Lexer` and its scanning functions.  The lexer state
  `{input, iter, c, ci, error}` is represented by the consumed prefix `pre`,
  the remaining characters `rem` (whose head is the current char `c`), and the
  `error` flag; the current byte offset `ci` is the byte length of `pre`, and
  `input = pre ++ rem`.  Byte offsets use the UTF-8 width of each character,
  as Rust's `char_indices` does.  A `Token` pairs a `TokenKind` with a
  half-open byte range.  Rust panics (integer-literal overflow via
  `parse::<i32>().unwrap()`) are modelled by `Option`: `none` is a panic.
  The character classes `is_alphabetic`/`is_alphanumeric`/`is_numeric` are
  Unicode classes in Rust; the embedding restricts them to their ASCII
  fragments (`Char.isAlpha`, `Char.isAlphanum`, `Char.isDigit`), which agree
  with Rust on all ASCII input.
* `src/intern.rs` — `Tgc.Interner`.  The `entries` hash map keyed by string
  content together with the `names` vector is represented by the `names`
  list alone; the map lookup is `lookupIdx`, which finds the index of the
  first entry with equal content, exactly what `entries.get(name)` returns
  for the canonical stored copies.  `name` models the vector indexing
  `&self.names[sym.idx]` with `none` as the out-of-bounds panic.
* `src/ast.rs`    — `Tgc.Var`, `Tgc.Expr`, `Tgc.Decl`, `Tgc.Fundecl`,
  `Tgc.Typedecl`, `Tgc.Ty`, `Tgc.Field`, `Tgc.Op` (boxes erased; the
  constructors `Type` of `TokenKind` and `Decl` are spelled `Type_` because
  `Type` is reserved in Lean).
* `src/parser.rs` — `Tgc.Parser`.  `peek`/`tok_pos` index `tokens[pos]`
  without a bounds check in Rust; the embedding returns `none` for the
  out-of-bounds panic and threads it through `t`, `t_rest`, `f`, `parse`.
  The `t_rest` loop is realized with a fuel argument larger than the token
  count; each iteration consumes two tokens, so the fuel never runs out.
-/

namespace Tgc

/-- UTF-8 byte width of a character, as Rust's `char::len_utf8`. -/
def charSize (c : Char) : Nat :=
  if c.val ≤ 0x7F then 1 else if c.val ≤ 0x7FF then 2 else if c.val ≤ 0xFFFF then 3 else 4

/-- Byte length of a character sequence (Rust `str::len` of the text). -/
def byteLen : List Char → Nat
  | [] => 0
  | c :: cs => charSize c + byteLen cs

/-- The characters of a text repeated once per byte they occupy: position `p`
of `byteExpand cs` is the character whose UTF-8 encoding covers byte `p`. -/
def byteExpand : List Char → List Char
  | [] => []
  | c :: cs => List.replicate (charSize c) c ++ byteExpand cs

/-- The character covering byte offset `p` of the text `cs`. -/
def byteAt (cs : List Char) (p : Nat) : Char :=
  (byteExpand cs).getD p '\x00'

/-- The whitespace test of `Lexer::scan_whitespace` (space, tab, CR, LF). -/
def isWs (c : Char) : Bool :=
  c = ' ' || c = '\t' || c = '\r' || c = '\n'

/-- `TokenPos` of `src/lexer.rs`: a half-open byte-offset range.  The Rust
field `end` is spelled `stop` because `end` is reserved in Lean. -/
structure TokenPos where
  start : Nat
  stop : Nat
deriving DecidableEq, Repr

/-- `TokenKind` of `src/lexer.rs`.  Borrowed `&str` payloads become `String`;
the `i32` payload of `Num` becomes `Int`.  The constructor `Type` is spelled
`Type_` (reserved word); `Ampsersand` keeps the source's spelling. -/
inductive TokenKind where
  | Comma
  | Colon
  | Semicolon
  | LeftParen
  | RightParen
  | LeftSquare
  | RightSquare
  | LeftCurly
  | RightCurly
  | Period
  | Plus
  | Minus
  | Times
  | Divide
  | Equals
  | NotEquals
  | LT
  | LE
  | GT
  | GE
  | Ampsersand
  | Pipe
  | ColonEquals
  | Array
  | If
  | Then
  | Else
  | While
  | For
  | To
  | Do
  | Let
  | In
  | End
  | Of
  | Break
  | Nil
  | Function
  | Var
  | Type_
  | Import
  | Primitive
  | Id : String → TokenKind
  | Num : Int → TokenKind
  | String : String → TokenKind
  | EOF
  | Error
deriving DecidableEq, Repr

/-- `Token` of `src/lexer.rs`. -/
structure Token where
  kind : TokenKind
  pos : TokenPos
deriving DecidableEq, Repr

/-- `Lexer` of `src/lexer.rs`.  `pre` is the consumed prefix, `rem` the
remaining characters; the current char `c` is `rem.headD '\x00'` (Rust sets
`c = '\x00'` at end of input) and the current byte offset `ci` is
`byteLen pre` (equal to `input.len()` once `rem` is empty). -/
structure Lexer where
  pre : List Char
  rem : List Char
  error : Bool
deriving DecidableEq, Repr

/-- `Lexer::new`: starts at offset 0 with the first character current. -/
def Lexer.new (input : List Char) : Lexer :=
  ⟨[], input, false⟩

/-- The current character `self.c` (`'\x00'` at end of input). -/
def Lexer.c (s : Lexer) : Char :=
  s.rem.headD '\x00'

/-- The current byte offset `self.ci`. -/
def Lexer.ci (s : Lexer) : Nat :=
  byteLen s.pre

/-- `self.iter.peek()`: the character after the current one, if any. -/
def Lexer.peek (s : Lexer) : Option Char :=
  s.rem.tail.head?

/-- `Lexer::is_at_end`: `self.ci >= self.input.len()`.  Since every character
occupies at least one byte, this holds exactly when no characters remain. -/
def Lexer.is_at_end (s : Lexer) : Bool :=
  s.rem.isEmpty

/-- `Lexer::scan_char`: advance to the next character (at the end of input it
sets `ci = input.len()` and `c = '\x00'`, which is this representation's
state with `rem = []`). -/
def Lexer.scan_char (s : Lexer) : Lexer :=
  match s.rem with
  | [] => s
  | ch :: rest => ⟨s.pre ++ [ch], rest, s.error⟩

/-- A maximal run of characters satisfying `p`: returns the run and the rest.
This is the shape of the scanning loops in `scan_whitespace`,
`scan_identifier_or_keyword` and `scan_number`. -/
def scanWhile (p : Char → Bool) : List Char → List Char × List Char
  | [] => ([], [])
  | ch :: rest =>
    if p ch then
      let dr := scanWhile p rest
      (ch :: dr.1, dr.2)
    else
      ([], ch :: rest)

/-- `Lexer::scan_whitespace`: skip a maximal run of whitespace. -/
def Lexer.scan_whitespace (s : Lexer) : Lexer :=
  let dr := scanWhile isWs s.rem
  ⟨s.pre ++ dr.1, dr.2, s.error⟩

/-- `Lexer::error_token`: an `Error` token at `[ci, ci+1)`; sets the sticky
`error` flag and does not advance. -/
def Lexer.error_token (s : Lexer) : Token × Lexer :=
  (⟨.Error, ⟨s.ci, s.ci + 1⟩⟩, ⟨s.pre, s.rem, true⟩)

/-- The loop of `Lexer::scan_quote`: consume until end of input or until a
`'"'` not immediately preceded by a backslash; `prev` is the previously seen
character.  Returns the consumed characters and the rest. -/
def scanQuoteLoop (prev : Char) : List Char → List Char × List Char
  | [] => ([], [])
  | ch :: rest =>
    if ch = '"' && !(prev = '\\') then
      ([], ch :: rest)
    else
      let dr := scanQuoteLoop ch rest
      (ch :: dr.1, dr.2)

/-- Holds when `scanQuoteLoop prev l` reaches the end of input without finding
an unescaped closing quote. -/
def unterminated (prev : Char) : List Char → Bool
  | [] => true
  | ch :: rest =>
    if ch = '"' && !(prev = '\\') then false else unterminated ch rest

/-- `Lexer::scan_quote`, entered with the current character the opening `'"'`:
on success the payload is the raw text between the quotes; reaching end of
input first produces `error_token` (at the end-of-input offset). -/
def Lexer.scan_quote (s : Lexer) : Token × Lexer :=
  let start := s.ci
  let s1 := s.scan_char
  let dr := scanQuoteLoop s.c s1.rem
  let s2 : Lexer := ⟨s1.pre ++ dr.1, dr.2, s1.error⟩
  if s2.c ≠ '"' then
    s2.error_token
  else
    let s3 := s2.scan_char
    (⟨.String (String.mk dr.1), ⟨start, s3.ci⟩⟩, s3)

/-- The keyword table of `Lexer::scan_identifier_or_keyword`. -/
def keywordOrId (text : String) : TokenKind :=
  match text with
  | "array" => .Array
  | "if" => .If
  | "then" => .Then
  | "else" => .Else
  | "while" => .While
  | "for" => .For
  | "to" => .To
  | "do" => .Do
  | "let" => .Let
  | "in" => .In
  | "end" => .End
  | "of" => .Of
  | "break" => .Break
  | "nil" => .Nil
  | "function" => .Function
  | "var" => .Var
  | "type" => .Type_
  | "import" => .Import
  | "primitive" => .Primitive
  | _ => .Id text

/-- `Lexer::scan_identifier_or_keyword`: a maximal run of alphanumerics and
underscores (Rust `is_alphanumeric`, ASCII fragment), looked up in the
keyword table. -/
def Lexer.scan_identifier_or_keyword (s : Lexer) : Token × Lexer :=
  let start := s.ci
  let dr := scanWhile (fun ch => ch.isAlphanum || ch = '_') s.rem
  let s' : Lexer := ⟨s.pre ++ dr.1, dr.2, s.error⟩
  (⟨keywordOrId (String.mk dr.1), ⟨start, s'.ci⟩⟩, s')

/-- Numeric value of a run of decimal digits, as `str::parse` computes it. -/
def natOfDigits (ds : List Char) : Nat :=
  ds.foldl (fun n ch => 10 * n + (ch.toNat - 48)) 0

/-- `Lexer::scan_number`: a maximal run of decimal digits (Rust `is_numeric`,
ASCII fragment), parsed with `parse::<i32>().unwrap()`.  The parse of a
nonempty digit run succeeds exactly when the value is at most `i32::MAX =
2147483647`; the `unwrap` panic on overflow is modelled by `none`. -/
def Lexer.scan_number (s : Lexer) : Option (Token × Lexer) :=
  let start := s.ci
  let dr := scanWhile Char.isDigit s.rem
  let s' : Lexer := ⟨s.pre ++ dr.1, dr.2, s.error⟩
  let n := natOfDigits dr.1
  if n ≤ 2147483647 then
    some (⟨.Num (Int.ofNat n), ⟨start, s'.ci⟩⟩, s')
  else
    none

/-- The `match self.c` arm table of `Lexer::next_token` for punctuation and
operators: the two-character operators `:=`, `<=`, `<>`, `>=` peek one
character ahead and consume it; every character not in the table yields
`Error` (the source's catch-all arm), which `next_token` then dispatches to
the identifier, number, or error cases. -/
def Lexer.symbolKind (ch : Char) (s : Lexer) : TokenKind × Lexer :=
  if ch = ',' then (.Comma, s)
  else if ch = ':' then
    (if s.peek = some '=' then (.ColonEquals, s.scan_char) else (.Colon, s))
  else if ch = ';' then (.Semicolon, s)
  else if ch = '(' then (.LeftParen, s)
  else if ch = ')' then (.RightParen, s)
  else if ch = '[' then (.LeftSquare, s)
  else if ch = ']' then (.RightSquare, s)
  else if ch = '{' then (.LeftCurly, s)
  else if ch = '}' then (.RightCurly, s)
  else if ch = '.' then (.Period, s)
  else if ch = '+' then (.Plus, s)
  else if ch = '-' then (.Minus, s)
  else if ch = '*' then (.Times, s)
  else if ch = '/' then (.Divide, s)
  else if ch = '=' then (.Equals, s)
  else if ch = '<' then
    (if s.peek = some '=' then (.LE, s.scan_char)
     else if s.peek = some '>' then (.NotEquals, s.scan_char)
     else (.LT, s))
  else if ch = '>' then
    (if s.peek = some '=' then (.GE, s.scan_char) else (.GT, s))
  else if ch = '&' then (.Ampsersand, s)
  else if ch = '|' then (.Pipe, s)
  else (.Error, s)

/-- `Lexer::next_token`: skip whitespace; emit `EOF` at `[end, end)` when the
input is exhausted; scan a string on `'"'` (the source's match arm returns
`scan_quote` directly); otherwise consult the operator table, and on its
catch-all `Error` dispatch to identifier/keyword, number, or `error_token`.
`none` is the panic of `scan_number` on integer overflow. -/
def Lexer.next_token (s0 : Lexer) : Option (Token × Lexer) :=
  let s := s0.scan_whitespace
  if s.is_at_end then
    some (⟨.EOF, ⟨s.ci, s.ci⟩⟩, s)
  else if s.c = '"' then
    some s.scan_quote
  else
    let ks := Lexer.symbolKind s.c s
    if ks.1 ≠ .Error then
      let s2 := ks.2.scan_char
      some (⟨ks.1, ⟨s.ci, s2.ci⟩⟩, s2)
    else if s.c.isAlpha then
      some s.scan_identifier_or_keyword
    else if s.c.isDigit then
      s.scan_number
    else
      some s.error_token

/-- The token sequence of `impl Iterator for Lexer` collected into a list:
`next` returns `None` once the `error` flag is set and on `EOF`, so the
sequence stops after the first error token or at end of input.  `fuel`
dominates the number of iterations; since every yielded non-error token
consumes at least one character and an error token stops the next iteration,
`rem.length + 1` is always enough (`none` only ever reports a panic of
`next_token`). -/
def Lexer.tokensAux : Nat → Lexer → Option (List Token)
  | 0, _ => none
  | fuel + 1, s =>
    if s.error then
      some []
    else
      match s.next_token with
      | none => none
      | some (t, s') =>
        if t.kind = .EOF then
          some []
        else
          match Lexer.tokensAux fuel s' with
          | none => none
          | some ts => some (t :: ts)

/-- All tokens the lexer's iterator yields, `none` when lexing panics. -/
def Lexer.tokens (s : Lexer) : Option (List Token) :=
  Lexer.tokensAux (s.rem.length + 1) s

/-- Lex an input text from the start. -/
def lex (cs : List Char) : Option (List Token) :=
  (Lexer.new cs).tokens

/-- Does some token of `ts` cover byte offset `p`? -/
def covered (ts : List Token) (p : Nat) : Bool :=
  ts.any (fun t => t.pos.start ≤ p && p < t.pos.stop)

/-- Token ranges are well-formed and ordered starting from offset `lo`: each
token starts no earlier than `lo`, is nonempty, and the next token starts no
earlier than it ends. -/
def RangesFrom : Nat → List Token → Prop
  | _, [] => True
  | lo, t :: ts => lo ≤ t.pos.start ∧ t.pos.start < t.pos.stop ∧ RangesFrom t.pos.stop ts

/-- `Symbol` of `src/intern.rs`: an index into the interner's `names` table. -/
structure Symbol where
  idx : Nat
deriving DecidableEq, Repr

/-- `Interner` of `src/intern.rs`.  The `entries` hash map is keyed by string
content and stores, for each distinct content, the symbol made at its first
insertion; that map is fully determined by the `names` vector (look up the
index of the first entry with equal content), so the state is `names`
alone. -/
structure Interner where
  names : List String
deriving DecidableEq, Repr

/-- Index of the first entry with content equal to `name`, as
`entries.get(name)` returns it (HashMap equality on `&str` is content
equality). -/
def lookupIdx (name : String) : List String → Option Nat
  | [] => none
  | x :: rest => if x = name then some 0 else (lookupIdx name rest).map (· + 1)

/-- `Interner::new`. -/
def Interner.new : Interner :=
  ⟨[]⟩

/-- `Interner::symbol`: return the existing handle when the content was seen
before, else append a canonical copy and return a fresh handle.  The updated
interner is returned alongside (Rust mutates `&mut self`). -/
def Interner.symbol (t : Interner) (name : String) : Symbol × Interner :=
  match lookupIdx name t.names with
  | some i => (⟨i⟩, t)
  | none => (⟨t.names.length⟩, ⟨t.names ++ [name]⟩)

/-- `Interner::name`: the vector indexing `&self.names[sym.idx]`, with `none`
as the out-of-bounds panic. -/
def Interner.name (t : Interner) (sym : Symbol) : Option String :=
  t.names[sym.idx]?

/-- `Op` of `src/ast.rs`. -/
inductive Op where
  | Plus
  | Minus
  | Times
  | Divide
  | Eq
  | Neq
  | Lt
  | Le
  | Gt
  | Ge
deriving DecidableEq, Repr

/-- `Field` of `src/ast.rs`. -/
structure Field where
  name : Symbol
  ftype : Symbol
  pos : TokenPos

/-- `Ty` of `src/ast.rs`. -/
inductive Ty where
  | Name : Symbol → TokenPos → Ty
  | Record : List Field → Ty
  | Array : Symbol → TokenPos → Ty

/-- `Typedecl` of `src/ast.rs`. -/
structure Typedecl where
  name : Symbol
  ty : Ty
  pos : TokenPos

mutual

/-- `Var` of `src/ast.rs` (boxes erased). -/
inductive Var where
  | Simple : Symbol → TokenPos → Var
  | Field : Var → Symbol → TokenPos → Var
  | Subscript : Var → Expr → TokenPos → Var

/-- `Expr` of `src/ast.rs` (boxes erased; `&'a str` payloads are `String`,
`i32` is `Int`).  Constructor argument order follows the source's field
order. -/
inductive Expr where
  | VarRef : Var → Expr
  | Nil : Expr
  | Int : Int → Expr
  | String : String → Expr
  | Call : Symbol → List Expr → TokenPos → Expr
  | BinOp : Expr → Op → Expr → TokenPos → Expr
  | Record : List (Symbol × Expr × TokenPos) → Symbol → TokenPos → Expr
  | Seq : List (Expr × TokenPos) → Expr
  | Assign : Var → Expr → TokenPos → Expr
  | If : Expr → Expr → Option Expr → TokenPos → Expr
  | While : Expr → Expr → TokenPos → Expr
  | For : Symbol → Expr → Expr → TokenPos → Expr
  | Break : TokenPos → Expr
  | Let : List Decl → Expr → TokenPos → Expr
  | Array : Symbol → Expr → Expr → TokenPos → Expr

/-- `Decl` of `src/ast.rs` (its `Type` constructor is spelled `Type_`). -/
inductive Decl where
  | Function : List Fundecl → Decl
  | Var : Symbol → Option (Symbol × TokenPos) → Expr → TokenPos → Decl
  | Type_ : List Typedecl → Decl

/-- `Fundecl` of `src/ast.rs`: name, params, optional result type, body,
position. -/
inductive Fundecl where
  | mk : Symbol → List Field → Option (Symbol × TokenPos) → Expr → TokenPos → Fundecl

end

/-- `Parser` of `src/parser.rs`: the token vector and a forward-only cursor. -/
structure Parser where
  tokens : List Token
  pos : Nat

/-- `ParseError` of `src/parser.rs`: an expected-construct description and the
offending token kind.  (It carries no position.) -/
inductive ParseError where
  | UnexpectedToken : String → TokenKind → ParseError
deriving DecidableEq, Repr

/-- `Parser::new`. -/
def Parser.new (tokens : List Token) : Parser :=
  ⟨tokens, 0⟩

/-- `Parser::is_eof`. -/
def Parser.is_eof (p : Parser) : Bool :=
  p.pos ≥ p.tokens.length

/-- `Parser::peek`: `self.tokens[self.pos].kind`, with `none` as the
out-of-bounds indexing panic (the `println!` is ignored). -/
def Parser.peek (p : Parser) : Option TokenKind :=
  (p.tokens[p.pos]?).map Token.kind

/-- `Parser::tok_pos`: `self.tokens[self.pos].pos`, with `none` as the
out-of-bounds indexing panic. -/
def Parser.tok_pos (p : Parser) : Option TokenPos :=
  (p.tokens[p.pos]?).map Token.pos

/-- `Parser::advance`. -/
def Parser.advance (p : Parser) : Parser :=
  ⟨p.tokens, p.pos + 1⟩

/-- `Parser::f`: a primary expression, only an integer literal.  On a
non-`Num` token the `?` operator returns the error before `advance` runs.
`none` propagates the `peek` panic. -/
def Parser.f (p : Parser) : Option (Except ParseError Expr × Parser) :=
  match p.peek with
  | none => none
  | some kind =>
    match kind with
    | .Num x => some (.ok (.Int x), p.advance)
    | _ => some (.error (.UnexpectedToken "a number" kind), p)

/-- The loop of `Parser::t_rest`: fold `(Times, operand)` pairs onto `left`.
`fuel` dominates the iteration count (each iteration consumes two tokens);
`t_rest` passes more fuel than there are tokens, so a `none` from fuel alone
never occurs on the paths `parse` reaches. -/
def Parser.t_restAux : Nat → Parser → Expr → Option (Except ParseError Expr × Parser)
  | 0, _, _ => none
  | fuel + 1, p, left =>
    if p.is_eof then
      some (.ok left, p)
    else
      match p.peek with
      | none => none
      | some .Times =>
        match p.tok_pos with
        | none => none
        | some pos =>
          let p1 := p.advance
          match p1.f with
          | none => none
          | some (.error e, p2) => some (.error e, p2)
          | some (.ok right, p2) =>
            Parser.t_restAux fuel p2 (.BinOp left .Times right pos)
      | some _ => some (.ok left, p)

/-- `Parser::t_rest`. -/
def Parser.t_rest (p : Parser) (left : Expr) : Option (Except ParseError Expr × Parser) :=
  Parser.t_restAux (p.tokens.length + 1) p left

/-- `Parser::t`: `peek` is called unguarded (`none` = panic on an empty token
vector); a `Num` or `LeftParen` token starts `f` then `t_rest`, anything
else is an unexpected-token error. -/
def Parser.t (p : Parser) : Option (Except ParseError Expr × Parser) :=
  match p.peek with
  | none => none
  | some kind =>
    match kind with
    | .Num _ =>
      match p.f with
      | none => none
      | some (.error e, p1) => some (.error e, p1)
      | some (.ok left, p1) => p1.t_rest left
    | .LeftParen =>
      match p.f with
      | none => none
      | some (.error e, p1) => some (.error e, p1)
      | some (.ok left, p1) => p1.t_rest left
    | _ => some (.error (.UnexpectedToken "an arithmetic expression" kind), p)

/-- `Parser::parse`. -/
def Parser.parse (p : Parser) : Option (Except ParseError Expr × Parser) :=
  p.t

/-- The whole pipeline on one input text: lex (as the parser test does with
`Lexer::new(..).collect()`), then parse.  `none` is a panic in either
stage. -/
def parseInput (cs : List Char) : Option (Except ParseError Expr × Parser) :=
  match lex cs with
  | none => none
  | some ts => (Parser.new ts).parse

/-! Auxiliary lemmas about byte offsets. -/

theorem charSize_pos (c : Char) : 0 < charSize c := by
  unfold charSize
  split_ifs <;> norm_num

theorem byteLen_append (a b : List Char) : byteLen (a ++ b) = byteLen a + byteLen b := by
  induction a with
  | nil => simp [byteLen]
  | cons c cs ih =>
    show charSize c + byteLen (cs ++ b) = charSize c + byteLen cs + byteLen b
    rw [ih]; omega

theorem byteLen_pos {l : List Char} (h : l ≠ []) : 0 < byteLen l := by
  cases l with
  | nil => exact absurd rfl h
  | cons c cs => have := charSize_pos c; simp only [byteLen]; omega

theorem length_byteExpand (l : List Char) : (byteExpand l).length = byteLen l := by
  induction l with
  | nil => rfl
  | cons c cs ih => simp [byteExpand, byteLen, ih]

theorem byteExpand_append (a b : List Char) :
    byteExpand (a ++ b) = byteExpand a ++ byteExpand b := by
  induction a with
  | nil => rfl
  | cons c cs ih => simp [byteExpand, ih]

theorem byteAt_append_right (a b : List Char) (p : Nat) (hp : byteLen a ≤ p) :
    byteAt (a ++ b) p = byteAt b (p - byteLen a) := by
  unfold byteAt
  rw [byteExpand_append, List.getD_append_right]
  · rw [length_byteExpand]
  · rw [length_byteExpand]; exact hp

theorem byteAt_mem (b : List Char) (q : Nat) (hq : q < byteLen b) : byteAt b q ∈ b := by
  induction b generalizing q with
  | nil => simp [byteLen] at hq
  | cons c cs ih =>
    unfold byteAt byteExpand
    by_cases h : q < charSize c
    · rw [List.getD_append]
      · simp [List.getD_eq_getElem?_getD, List.getElem?_replicate, h]
      · simpa using h
    · rw [List.getD_append_right]
      · simp only [List.length_replicate]
        have hsz : byteLen (c :: cs) = charSize c + byteLen cs := rfl
        have hq2 : q - charSize c < byteLen cs := by omega
        exact List.mem_cons_of_mem _ (ih _ hq2)
      · simpa using h

theorem byteAt_middle_mem (a b c : List Char) (p : Nat) (h1 : byteLen a ≤ p)
    (h2 : p < byteLen a + byteLen b) : byteAt (a ++ (b ++ c)) p ∈ b := by
  rw [byteAt_append_right a _ p h1]
  have h3 : p - byteLen a < byteLen b := by omega
  rcases Nat.lt_or_ge (p - byteLen a) (byteLen (b ++ c)) with hlt | hge
  · have : byteAt (b ++ c) (p - byteLen a) = byteAt b (p - byteLen a) := by
      unfold byteAt
      rw [byteExpand_append, List.getD_append]
      rw [length_byteExpand]; exact h3
    rw [this]; exact byteAt_mem b _ h3
  · rw [byteLen_append] at hge; omega

/-! Auxiliary lemmas about the scanning loops. -/

theorem scanWhile_append (p : Char → Bool) (l : List Char) :
    (scanWhile p l).1 ++ (scanWhile p l).2 = l := by
  induction l with
  | nil => rfl
  | cons c cs ih =>
    unfold scanWhile
    by_cases h : p c <;> simp [h, ih]

theorem scanWhile_all (p : Char → Bool) (l : List Char) :
    ∀ c ∈ (scanWhile p l).1, p c = true := by
  induction l with
  | nil => simp [scanWhile]
  | cons c cs ih =>
    unfold scanWhile
    by_cases h : p c <;> simp [h]
    intro x hx
    exact ih x hx

theorem scanWhile_stop (p : Char → Bool) (l : List Char) :
    (scanWhile p l).2 ≠ [] → p ((scanWhile p l).2.headD '\x00') = false := by
  induction l with
  | nil => simp [scanWhile]
  | cons c cs ih =>
    unfold scanWhile
    by_cases h : p c
    · simpa [h] using ih
    · intro
      simp [h]

theorem scanWhile_idem (p : Char → Bool) (l : List Char) :
    scanWhile p (scanWhile p l).2 = ([], (scanWhile p l).2) := by
  rcases hr : (scanWhile p l).2 with _ | ⟨c, rest⟩
  · rfl
  · have hs := scanWhile_stop p l (by rw [hr]; simp)
    rw [hr] at hs
    simp only [List.headD] at hs
    unfold scanWhile
    simp [hs]

theorem scanWhile_cons_true (p : Char → Bool) (c : Char) (l : List Char) (h : p c = true) :
    scanWhile p (c :: l) = (c :: (scanWhile p l).1, (scanWhile p l).2) := by
  simp [scanWhile, h]

theorem scanQuoteLoop_append (prev : Char) (l : List Char) :
    (scanQuoteLoop prev l).1 ++ (scanQuoteLoop prev l).2 = l := by
  induction l generalizing prev with
  | nil => rfl
  | cons c cs ih =>
    unfold scanQuoteLoop
    by_cases h : c = '"' && !(prev = '\\') <;> simp [h, ih]

theorem scanQuoteLoop_stop (prev : Char) (l : List Char) :
    (scanQuoteLoop prev l).2 = [] ∨ ∃ rest, (scanQuoteLoop prev l).2 = '"' :: rest := by
  induction l generalizing prev with
  | nil => exact Or.inl rfl
  | cons c cs ih =>
    unfold scanQuoteLoop
    by_cases h : c = '"' && !(prev = '\\')
    · simp only [h, if_true]
      exact Or.inr ⟨cs, by simp at h; simp [h.1]⟩
    · simp only [h, if_false]
      exact ih c

theorem scanQuoteLoop_of_unterminated (prev : Char) (l : List Char)
    (h : unterminated prev l = true) : scanQuoteLoop prev l = (l, []) := by
  induction l generalizing prev with
  | nil => rfl
  | cons c cs ih =>
    unfold unterminated at h
    unfold scanQuoteLoop
    by_cases hc : c = '"' && !(prev = '\\')
    · rw [if_pos hc] at h; exact absurd h (by simp)
    · rw [if_neg hc] at h
      simp [hc, ih c h]

/-! Characterization of one `next_token` step. -/

theorem tail_ne_nil_of_peek (s : Lexer) (c : Char) (h : s.peek = some c) :
    s.rem.tail ≠ [] := by
  intro he
  rw [Lexer.peek, he] at h
  simp at h

set_option maxHeartbeats 1000000 in
theorem symbolKind_spec (ch : Char) (s : Lexer) :
    (Lexer.symbolKind ch s).1 ≠ .EOF ∧
    ((Lexer.symbolKind ch s).2 = s ∨
     ((Lexer.symbolKind ch s).2 = s.scan_char ∧ s.rem.tail ≠ [])) := by
  rw [Lexer.symbolKind]
  by_cases h1 : ch = ','
  · rw [if_pos h1]; exact ⟨by simp, Or.inl rfl⟩
  rw [if_neg h1]
  by_cases h2 : ch = ':'
  · rw [if_pos h2]
    by_cases hp : s.peek = some '='
    · rw [if_pos hp]; exact ⟨by simp, Or.inr ⟨rfl, tail_ne_nil_of_peek _ _ hp⟩⟩
    · rw [if_neg hp]; exact ⟨by simp, Or.inl rfl⟩
  rw [if_neg h2]
  by_cases h3 : ch = ';'
  · rw [if_pos h3]; exact ⟨by simp, Or.inl rfl⟩
  rw [if_neg h3]
  by_cases h4 : ch = '('
  · rw [if_pos h4]; exact ⟨by simp, Or.inl rfl⟩
  rw [if_neg h4]
  by_cases h5 : ch = ')'
  · rw [if_pos h5]; exact ⟨by simp, Or.inl rfl⟩
  rw [if_neg h5]
  by_cases h6 : ch = '['
  · rw [if_pos h6]; exact ⟨by simp, Or.inl rfl⟩
  rw [if_neg h6]
  by_cases h7 : ch = ']'
  · rw [if_pos h7]; exact ⟨by simp, Or.inl rfl⟩
  rw [if_neg h7]
  by_cases h8 : ch = '{'
  · rw [if_pos h8]; exact ⟨by simp, Or.inl rfl⟩
  rw [if_neg h8]
  by_cases h9 : ch = '}'
  · rw [if_pos h9]; exact ⟨by simp, Or.inl rfl⟩
  rw [if_neg h9]
  by_cases h10 : ch = '.'
  · rw [if_pos h10]; exact ⟨by simp, Or.inl rfl⟩
  rw [if_neg h10]
  by_cases h11 : ch = '+'
  · rw [if_pos h11]; exact ⟨by simp, Or.inl rfl⟩
  rw [if_neg h11]
  by_cases h12 : ch = '-'
  · rw [if_pos h12]; exact ⟨by simp, Or.inl rfl⟩
  rw [if_neg h12]
  by_cases h13 : ch = '*'
  · rw [if_pos h13]; exact ⟨by simp, Or.inl rfl⟩
  rw [if_neg h13]
  by_cases h14 : ch = '/'
  · rw [if_pos h14]; exact ⟨by simp, Or.inl rfl⟩
  rw [if_neg h14]
  by_cases h15 : ch = '='
  · rw [if_pos h15]; exact ⟨by simp, Or.inl rfl⟩
  rw [if_neg h15]
  by_cases h16 : ch = '<'
  · rw [if_pos h16]
    by_cases hp : s.peek = some '='
    · rw [if_pos hp]; exact ⟨by simp, Or.inr ⟨rfl, tail_ne_nil_of_peek _ _ hp⟩⟩
    rw [if_neg hp]
    by_cases hq : s.peek = some '>'
    · rw [if_pos hq]; exact ⟨by simp, Or.inr ⟨rfl, tail_ne_nil_of_peek _ _ hq⟩⟩
    · rw [if_neg hq]; exact ⟨by simp, Or.inl rfl⟩
  rw [if_neg h16]
  by_cases h17 : ch = '>'
  · rw [if_pos h17]
    by_cases hp : s.peek = some '='
    · rw [if_pos hp]; exact ⟨by simp, Or.inr ⟨rfl, tail_ne_nil_of_peek _ _ hp⟩⟩
    · rw [if_neg hp]; exact ⟨by simp, Or.inl rfl⟩
  rw [if_neg h17]
  by_cases h18 : ch = '&'
  · rw [if_pos h18]; exact ⟨by simp, Or.inl rfl⟩
  rw [if_neg h18]
  by_cases h19 : ch = '|'
  · rw [if_pos h19]; exact ⟨by simp, Or.inl rfl⟩
  rw [if_neg h19]
  exact ⟨by simp, Or.inl rfl⟩

set_option maxHeartbeats 1000000 in
theorem symbolKind_error_any (ch : Char) (s s₂ : Lexer)
    (h : (Lexer.symbolKind ch s).1 = .Error) : Lexer.symbolKind ch s₂ = (.Error, s₂) := by
  rw [Lexer.symbolKind] at h
  by_cases h1 : ch = ','
  · rw [if_pos h1] at h; simp at h
  rw [if_neg h1] at h
  by_cases h2 : ch = ':'
  · rw [if_pos h2] at h
    by_cases hp : s.peek = some '=' <;> simp [hp] at h
  rw [if_neg h2] at h
  by_cases h3 : ch = ';'
  · rw [if_pos h3] at h; simp at h
  rw [if_neg h3] at h
  by_cases h4 : ch = '('
  · rw [if_pos h4] at h; simp at h
  rw [if_neg h4] at h
  by_cases h5 : ch = ')'
  · rw [if_pos h5] at h; simp at h
  rw [if_neg h5] at h
  by_cases h6 : ch = '['
  · rw [if_pos h6] at h; simp at h
  rw [if_neg h6] at h
  by_cases h7 : ch = ']'
  · rw [if_pos h7] at h; simp at h
  rw [if_neg h7] at h
  by_cases h8 : ch = '{'
  · rw [if_pos h8] at h; simp at h
  rw [if_neg h8] at h
  by_cases h9 : ch = '}'
  · rw [if_pos h9] at h; simp at h
  rw [if_neg h9] at h
  by_cases h10 : ch = '.'
  · rw [if_pos h10] at h; simp at h
  rw [if_neg h10] at h
  by_cases h11 : ch = '+'
  · rw [if_pos h11] at h; simp at h
  rw [if_neg h11] at h
  by_cases h12 : ch = '-'
  · rw [if_pos h12] at h; simp at h
  rw [if_neg h12] at h
  by_cases h13 : ch = '*'
  · rw [if_pos h13] at h; simp at h
  rw [if_neg h13] at h
  by_cases h14 : ch = '/'
  · rw [if_pos h14] at h; simp at h
  rw [if_neg h14] at h
  by_cases h15 : ch = '='
  · rw [if_pos h15] at h; simp at h
  rw [if_neg h15] at h
  by_cases h16 : ch = '<'
  · rw [if_pos h16] at h
    by_cases hp : s.peek = some '=' <;> by_cases hq : s.peek = some '>' <;> simp [hp, hq] at h
  rw [if_neg h16] at h
  by_cases h17 : ch = '>'
  · rw [if_pos h17] at h
    by_cases hp : s.peek = some '=' <;> simp [hp] at h
  rw [if_neg h17] at h
  by_cases h18 : ch = '&'
  · rw [if_pos h18] at h; simp at h
  rw [if_neg h18] at h
  by_cases h19 : ch = '|'
  · rw [if_pos h19] at h; simp at h
  rw [if_neg h19] at h
  rw [Lexer.symbolKind, if_neg h1, if_neg h2, if_neg h3, if_neg h4, if_neg h5, if_neg h6, if_neg h7, if_neg h8, if_neg h9, if_neg h10, if_neg h11, if_neg h12, if_neg h13, if_neg h14, if_neg h15, if_neg h16, if_neg h17, if_neg h18, if_neg h19]

theorem keywordOrId_ne (text : String) :
    keywordOrId text ≠ .EOF ∧ keywordOrId text ≠ .Error := by
  unfold keywordOrId
  split <;> simp

/-- One successful `next_token` step, seen structurally: it either announces
end of input after whitespace only, or produces an error token and sets the
sticky flag, or consumes a (possibly empty) whitespace run `ws` followed by a
nonempty character run `d` which the token's byte range covers exactly. -/
theorem next_token_step (s : Lexer) (t : Token) (s' : Lexer)
    (h : s.next_token = some (t, s')) :
    (t.kind = .EOF ∧ (∀ c ∈ s.rem, isWs c = true) ∧ s' = ⟨s.pre ++ s.rem, [], s.error⟩ ∧
      t.pos.start = byteLen (s.pre ++ s.rem) ∧ t.pos.stop = byteLen (s.pre ++ s.rem)) ∨
    (t.kind = .Error ∧ s'.error = true) ∨
    (t.kind ≠ .EOF ∧ t.kind ≠ .Error ∧ ∃ ws d,
      (∀ c ∈ ws, isWs c = true) ∧ d ≠ [] ∧
      s.rem = ws ++ (d ++ s'.rem) ∧ s'.pre = s.pre ++ (ws ++ d) ∧ s'.error = s.error ∧
      t.pos.start = byteLen (s.pre ++ ws) ∧ t.pos.stop = byteLen (s.pre ++ (ws ++ d))) := by
  have hsplit := scanWhile_append isWs s.rem
  have hall := scanWhile_all isWs s.rem
  rcases hw : scanWhile isWs s.rem with ⟨ws, r⟩
  rw [hw] at hsplit hall
  simp only at hsplit hall
  rcases r with _ | ⟨c, rest⟩
  · -- whitespace consumed everything: EOF
    have hnt : s.next_token =
        some (⟨.EOF, ⟨byteLen (s.pre ++ ws), byteLen (s.pre ++ ws)⟩⟩,
              ⟨s.pre ++ ws, [], s.error⟩) := by
      simp [Lexer.next_token, Lexer.scan_whitespace, hw, Lexer.is_at_end, Lexer.ci]
    rw [hnt] at h
    obtain ⟨ht, hs'⟩ := Prod.mk.injEq .. ▸ Option.some.injEq .. ▸ h
    refine Or.inl ?_
    subst ht hs'
    simp only [List.append_nil] at hsplit
    subst hsplit
    exact ⟨rfl, hall, rfl, rfl, rfl⟩
  · -- a real character follows the whitespace
    have hrem : s.rem = ws ++ (c :: rest) := hsplit.symm
    by_cases hc : c = '"'
    · -- string scanning
      subst hc
      rcases hq : scanQuoteLoop '"' rest with ⟨d1, r1⟩
      have hqa := scanQuoteLoop_append '"' rest
      have hqs := scanQuoteLoop_stop '"' rest
      rw [hq] at hqa hqs
      simp only at hqa hqs
      rcases hqs with hr1 | ⟨rest2, hr1⟩
      · -- unterminated: error token at end of input
        subst hr1
        have hnt : s.next_token =
            some (⟨.Error, ⟨byteLen ((s.pre ++ ws) ++ '"' :: d1),
                            byteLen ((s.pre ++ ws) ++ '"' :: d1) + 1⟩⟩,
                  ⟨(s.pre ++ ws) ++ '"' :: d1, [], true⟩) := by
          simp [Lexer.next_token, Lexer.scan_whitespace, hw, Lexer.is_at_end, Lexer.c,
                Lexer.scan_quote, Lexer.scan_char, hq, Lexer.error_token, Lexer.ci]
        rw [hnt] at h
        obtain ⟨ht, hs'⟩ := Prod.mk.injEq .. ▸ Option.some.injEq .. ▸ h
        subst ht hs'
        exact Or.inr (Or.inl ⟨rfl, rfl⟩)
      · -- closing quote found: a String token
        subst hr1
        have hnt : s.next_token =
            some (⟨.String (String.mk d1),
                   ⟨byteLen (s.pre ++ ws), byteLen ((s.pre ++ ws) ++ '"' :: d1 ++ ['"'])⟩⟩,
                  ⟨(s.pre ++ ws) ++ '"' :: d1 ++ ['"'], rest2, s.error⟩) := by
          simp [Lexer.next_token, Lexer.scan_whitespace, hw, Lexer.is_at_end, Lexer.c,
                Lexer.scan_quote, Lexer.scan_char, hq, Lexer.ci, List.append_assoc]
        rw [hnt] at h
        obtain ⟨ht, hs'⟩ := Prod.mk.injEq .. ▸ Option.some.injEq .. ▸ h
        subst ht hs'
        refine Or.inr (Or.inr ⟨by simp, by simp, ws, '"' :: (d1 ++ ['"']), hall, by simp, ?_, ?_, rfl, rfl, ?_⟩)
        · simp only [hrem]
          simp [← hqa, List.append_assoc]
        · simp [List.append_assoc]
        · simp [List.append_assoc]
    · -- operator table, identifier, number, or sticky error
      rcases hks : Lexer.symbolKind c ⟨s.pre ++ ws, c :: rest, s.error⟩ with ⟨k, sk⟩
      have hspec := symbolKind_spec c ⟨s.pre ++ ws, c :: rest, s.error⟩
      rw [hks] at hspec
      obtain ⟨hkEOF, hsk⟩ := hspec
      by_cases hkE : k = .Error
      · -- the catch-all arm: identifier, number, or error token
        subst hkE
        by_cases ha : c.isAlpha
        · -- identifier or keyword
          rcases hid : scanWhile (fun ch => ch.isAlphanum || ch = '_') rest with ⟨e1, r1⟩
          have hida := scanWhile_append (fun ch => ch.isAlphanum || ch = '_') rest
          rw [hid] at hida
          simp only at hida
          have hpc : (fun ch => ch.isAlphanum || ch = '_') c = true := by
            simp [Char.isAlphanum, ha]
          have hcons := scanWhile_cons_true (fun ch => ch.isAlphanum || ch = '_') c rest hpc
          rw [hid] at hcons
          have hnt : s.next_token =
              some (⟨keywordOrId (String.mk (c :: e1)),
                     ⟨byteLen (s.pre ++ ws), byteLen ((s.pre ++ ws) ++ c :: e1)⟩⟩,
                    ⟨(s.pre ++ ws) ++ c :: e1, r1, s.error⟩) := by
            simp [Lexer.next_token, Lexer.scan_whitespace, hw, Lexer.is_at_end, Lexer.c,
                  hc, hks, ha, Lexer.scan_identifier_or_keyword, hcons, Lexer.ci]
          rw [hnt] at h
          obtain ⟨ht, hs'⟩ := Prod.mk.injEq .. ▸ Option.some.injEq .. ▸ h
          subst ht hs'
          refine Or.inr (Or.inr ⟨(keywordOrId_ne _).1, (keywordOrId_ne _).2, ws, c :: e1,
            hall, by simp, ?_, by simp, rfl, rfl, by simp⟩)
          simp only [hrem, List.cons_append, List.append_assoc, hida]
        · by_cases hd : c.isDigit
          · -- number
            rcases hnum : scanWhile Char.isDigit rest with ⟨e1, r1⟩
            have hnuma := scanWhile_append Char.isDigit rest
            rw [hnum] at hnuma
            simp only at hnuma
            have hcons := scanWhile_cons_true Char.isDigit c rest hd
            rw [hnum] at hcons
            by_cases hov : natOfDigits (c :: e1) ≤ 2147483647
            · have hnt : s.next_token =
                  some (⟨.Num (Int.ofNat (natOfDigits (c :: e1))),
                         ⟨byteLen (s.pre ++ ws), byteLen ((s.pre ++ ws) ++ c :: e1)⟩⟩,
                        ⟨(s.pre ++ ws) ++ c :: e1, r1, s.error⟩) := by
                simp [Lexer.next_token, Lexer.scan_whitespace, hw, Lexer.is_at_end, Lexer.c,
                      hc, hks, ha, hd, Lexer.scan_number, hcons, Lexer.ci, hov]
              rw [hnt] at h
              obtain ⟨ht, hs'⟩ := Prod.mk.injEq .. ▸ Option.some.injEq .. ▸ h
              subst ht hs'
              refine Or.inr (Or.inr ⟨by simp, by simp, ws, c :: e1,
                hall, by simp, ?_, by simp, rfl, rfl, by simp⟩)
              simp only [hrem, List.cons_append, List.append_assoc, hnuma]
            · -- overflow: next_token panics, contradicting h
              have hnt : s.next_token = none := by
                simp [Lexer.next_token, Lexer.scan_whitespace, hw, Lexer.is_at_end, Lexer.c,
                      hc, hks, ha, hd, Lexer.scan_number, hcons, Lexer.ci, hov]
              rw [hnt] at h
              exact absurd h (by simp)
          · -- sticky lexical error
            have hnt : s.next_token =
                some (⟨.Error, ⟨byteLen (s.pre ++ ws), byteLen (s.pre ++ ws) + 1⟩⟩,
                      ⟨s.pre ++ ws, c :: rest, true⟩) := by
              simp [Lexer.next_token, Lexer.scan_whitespace, hw, Lexer.is_at_end, Lexer.c,
                    hc, hks, ha, hd, Lexer.error_token, Lexer.ci]
            rw [hnt] at h
            obtain ⟨ht, hs'⟩ := Prod.mk.injEq .. ▸ Option.some.injEq .. ▸ h
            subst ht hs'
            exact Or.inr (Or.inl ⟨rfl, rfl⟩)
      · -- an operator token: one or two characters are consumed
        have hnt : s.next_token =
            some (⟨k, ⟨byteLen (s.pre ++ ws), byteLen (sk.scan_char).pre⟩⟩, sk.scan_char) := by
          simp [Lexer.next_token, Lexer.scan_whitespace, hw, Lexer.is_at_end, Lexer.c,
                hc, hks, hkE, Lexer.ci]
        rw [hnt] at h
        obtain ⟨ht, hs'⟩ := Prod.mk.injEq .. ▸ Option.some.injEq .. ▸ h
        subst ht hs'
        rcases hsk with hsk | ⟨hsk, hne⟩
        · -- single-character operator
          subst hsk
          refine Or.inr (Or.inr ⟨hkEOF, hkE, ws, [c], hall, by simp, ?_, ?_, ?_, rfl, ?_⟩)
          · simp [hrem, Lexer.scan_char]
          · simp [Lexer.scan_char]
          · simp [Lexer.scan_char]
          · simp [Lexer.scan_char]
        · -- two-character operator
          subst hsk
          rcases rest with _ | ⟨c2, rest2⟩
          · exact absurd rfl hne
          · refine Or.inr (Or.inr ⟨hkEOF, hkE, ws, [c, c2], hall, by simp, ?_, ?_, ?_, rfl, ?_⟩)
            · simp [hrem, Lexer.scan_char]
            · simp [Lexer.scan_char, List.append_assoc]
            · simp [Lexer.scan_char]
            · simp [Lexer.scan_char, List.append_assoc]

/-- An error token produced at a position strictly before the end of the input
(the illegal-character case: the cursor was not advanced) is reproduced, with
the same position, by every further `next_token` call: `error_token` leaves
the cursor on the offending character. -/
theorem next_token_error_repeat (s : Lexer) (t : Token) (s' : Lexer)
    (h : s.next_token = some (t, s')) (hk : t.kind = .Error) (hne : s'.rem ≠ []) :
    s'.next_token = some (t, s') := by
  rcases hw : scanWhile isWs s.rem with ⟨ws, r⟩
  have hstop := scanWhile_stop isWs s.rem
  rw [hw] at hstop
  simp only at hstop
  rcases r with _ | ⟨c, rest⟩
  · -- EOF leaf: kind mismatch
    have hnt : s.next_token =
        some (⟨.EOF, ⟨byteLen (s.pre ++ ws), byteLen (s.pre ++ ws)⟩⟩,
              ⟨s.pre ++ ws, [], s.error⟩) := by
      simp [Lexer.next_token, Lexer.scan_whitespace, hw, Lexer.is_at_end, Lexer.ci]
    rw [hnt] at h
    obtain ⟨ht, _⟩ := Prod.mk.injEq .. ▸ Option.some.injEq .. ▸ h
    rw [← ht] at hk
    simp at hk
  · have hwsc : isWs c = false := by simpa using hstop (by simp)
    by_cases hc : c = '"'
    · subst hc
      rcases hq : scanQuoteLoop '"' rest with ⟨d1, r1⟩
      have hqs := scanQuoteLoop_stop '"' rest
      rw [hq] at hqs
      simp only at hqs
      rcases hqs with hr1 | ⟨rest2, hr1⟩
      · -- unterminated string: the new state is at the end of input
        subst hr1
        have hnt : s.next_token =
            some (⟨.Error, ⟨byteLen ((s.pre ++ ws) ++ '"' :: d1),
                            byteLen ((s.pre ++ ws) ++ '"' :: d1) + 1⟩⟩,
                  ⟨(s.pre ++ ws) ++ '"' :: d1, [], true⟩) := by
          simp [Lexer.next_token, Lexer.scan_whitespace, hw, Lexer.is_at_end, Lexer.c,
                Lexer.scan_quote, Lexer.scan_char, hq, Lexer.error_token, Lexer.ci]
        rw [hnt] at h
        obtain ⟨_, hs'⟩ := Prod.mk.injEq .. ▸ Option.some.injEq .. ▸ h
        rw [← hs'] at hne
        simp at hne
      · -- successful string: kind mismatch
        subst hr1
        have hnt : s.next_token =
            some (⟨.String (String.mk d1),
                   ⟨byteLen (s.pre ++ ws), byteLen ((s.pre ++ ws) ++ '"' :: d1 ++ ['"'])⟩⟩,
                  ⟨(s.pre ++ ws) ++ '"' :: d1 ++ ['"'], rest2, s.error⟩) := by
          simp [Lexer.next_token, Lexer.scan_whitespace, hw, Lexer.is_at_end, Lexer.c,
                Lexer.scan_quote, Lexer.scan_char, hq, Lexer.ci, List.append_assoc]
        rw [hnt] at h
        obtain ⟨ht, _⟩ := Prod.mk.injEq .. ▸ Option.some.injEq .. ▸ h
        rw [← ht] at hk
        simp at hk
    · rcases hks : Lexer.symbolKind c ⟨s.pre ++ ws, c :: rest, s.error⟩ with ⟨k, sk⟩
      by_cases hkE : k = .Error
      · subst hkE
        by_cases ha : c.isAlpha
        · -- identifier leaf: kind mismatch
          rcases hid : scanWhile (fun ch => ch.isAlphanum || ch = '_') rest with ⟨e1, r1⟩
          have hpc : (fun ch => ch.isAlphanum || ch = '_') c = true := by
            simp [Char.isAlphanum, ha]
          have hcons := scanWhile_cons_true (fun ch => ch.isAlphanum || ch = '_') c rest hpc
          rw [hid] at hcons
          have hnt : s.next_token =
              some (⟨keywordOrId (String.mk (c :: e1)),
                     ⟨byteLen (s.pre ++ ws), byteLen ((s.pre ++ ws) ++ c :: e1)⟩⟩,
                    ⟨(s.pre ++ ws) ++ c :: e1, r1, s.error⟩) := by
            simp [Lexer.next_token, Lexer.scan_whitespace, hw, Lexer.is_at_end, Lexer.c,
                  hc, hks, ha, Lexer.scan_identifier_or_keyword, hcons, Lexer.ci]
          rw [hnt] at h
          obtain ⟨ht, _⟩ := Prod.mk.injEq .. ▸ Option.some.injEq .. ▸ h
          rw [← ht] at hk
          exact absurd hk (keywordOrId_ne _).2
        · by_cases hd : c.isDigit
          · -- number leaf: kind mismatch (or a panic)
            rcases hnum : scanWhile Char.isDigit rest with ⟨e1, r1⟩
            have hcons := scanWhile_cons_true Char.isDigit c rest hd
            rw [hnum] at hcons
            by_cases hov : natOfDigits (c :: e1) ≤ 2147483647
            · have hnt : s.next_token =
                  some (⟨.Num (Int.ofNat (natOfDigits (c :: e1))),
                         ⟨byteLen (s.pre ++ ws), byteLen ((s.pre ++ ws) ++ c :: e1)⟩⟩,
                        ⟨(s.pre ++ ws) ++ c :: e1, r1, s.error⟩) := by
                simp [Lexer.next_token, Lexer.scan_whitespace, hw, Lexer.is_at_end, Lexer.c,
                      hc, hks, ha, hd, Lexer.scan_number, hcons, Lexer.ci, hov]
              rw [hnt] at h
              obtain ⟨ht, _⟩ := Prod.mk.injEq .. ▸ Option.some.injEq .. ▸ h
              rw [← ht] at hk
              simp at hk
            · have hnt : s.next_token = none := by
                simp [Lexer.next_token, Lexer.scan_whitespace, hw, Lexer.is_at_end, Lexer.c,
                      hc, hks, ha, hd, Lexer.scan_number, hcons, Lexer.ci, hov]
              rw [hnt] at h
              exact absurd h (by simp)
          · -- the illegal-character leaf: re-running reproduces the token
            have hnt : s.next_token =
                some (⟨.Error, ⟨byteLen (s.pre ++ ws), byteLen (s.pre ++ ws) + 1⟩⟩,
                      ⟨s.pre ++ ws, c :: rest, true⟩) := by
              simp [Lexer.next_token, Lexer.scan_whitespace, hw, Lexer.is_at_end, Lexer.c,
                    hc, hks, ha, hd, Lexer.error_token, Lexer.ci]
            rw [hnt] at h
            obtain ⟨ht, hs'⟩ := Prod.mk.injEq .. ▸ Option.some.injEq .. ▸ h
            subst ht hs'
            have hks2 := symbolKind_error_any c ⟨s.pre ++ ws, c :: rest, s.error⟩
              ⟨s.pre ++ ws, c :: rest, true⟩ (by rw [hks])
            have hfix : scanWhile isWs (c :: rest) = ([], c :: rest) := by
              simp [scanWhile, hwsc]
            simp [Lexer.next_token, Lexer.scan_whitespace, hfix, Lexer.is_at_end, Lexer.c,
                  hc, hks2, ha, hd, Lexer.error_token, Lexer.ci]
      · -- operator leaf: kind mismatch
        have hnt : s.next_token =
            some (⟨k, ⟨byteLen (s.pre ++ ws), byteLen (sk.scan_char).pre⟩⟩, sk.scan_char) := by
          simp [Lexer.next_token, Lexer.scan_whitespace, hw, Lexer.is_at_end, Lexer.c,
                hc, hks, hkE, Lexer.ci]
        rw [hnt] at h
        obtain ⟨ht, _⟩ := Prod.mk.injEq .. ▸ Option.some.injEq .. ▸ h
        rw [← ht] at hk
        exact absurd hk hkE

/-- Once the sticky flag is set, the iterator yields nothing. -/
theorem tokensAux_error (fuel : Nat) (s : Lexer) (h : s.error = true) :
    Lexer.tokensAux (fuel + 1) s = some [] := by
  simp [Lexer.tokensAux, h]

/-- Invariant of the yielded token sequence: no `EOF` token is yielded, an
error token can only be the final item, and when no error token occurs the
ranges are orderly within the input's byte span and every uncovered byte in
that span is whitespace. -/
theorem tokensAux_inv (fuel : Nat) (s : Lexer) (ts : List Token)
    (herr : s.error = false) (h : Lexer.tokensAux fuel s = some ts) :
    (∀ t ∈ ts, t.kind ≠ .EOF) ∧
    (∀ i, (hi : i < ts.length) → (ts.get ⟨i, hi⟩).kind = .Error → i = ts.length - 1) ∧
    ((∀ t ∈ ts, t.kind ≠ .Error) →
       RangesFrom (byteLen s.pre) ts ∧
       (∀ t ∈ ts, t.pos.stop ≤ byteLen (s.pre ++ s.rem)) ∧
       (∀ p, byteLen s.pre ≤ p → p < byteLen (s.pre ++ s.rem) →
          covered ts p = false → isWs (byteAt (s.pre ++ s.rem) p) = true)) := by
  induction fuel generalizing s ts with
  | zero => exact absurd h (by simp [Lexer.tokensAux])
  | succ fuel ih =>
    rw [Lexer.tokensAux, herr] at h
    simp only [Bool.false_eq_true, if_false] at h
    rcases hstep : s.next_token with _ | ⟨t, s2⟩
    · rw [hstep] at h; exact absurd h (by simp)
    · rw [hstep] at h
      have h' : (if t.kind = .EOF then some [] else
          match Lexer.tokensAux fuel s2 with
          | none => none
          | some ts2 => some (t :: ts2)) = some ts := h
      clear h
      by_cases hEOF : t.kind = .EOF
      · rw [if_pos hEOF] at h'
        obtain rfl : ([] : List Token) = ts := Option.some.injEq .. ▸ h'
        refine ⟨by simp, by simp, fun _ => ⟨trivial, by simp, ?_⟩⟩
        -- everything after the cursor is whitespace
        rcases next_token_step s t s2 hstep with ⟨_, hall, _, _, _⟩ | ⟨hkErr, _⟩ | ⟨hne1, _⟩
        · intro p hp1 hp2 _
          have hp2' : p < byteLen s.pre + byteLen s.rem := by
            rw [byteLen_append] at hp2; exact hp2
          have hmem : byteAt (s.pre ++ s.rem) p ∈ s.rem := by
            have := byteAt_middle_mem s.pre s.rem [] p hp1 hp2'
            simpa using this
          exact hall _ hmem
        · rw [hEOF] at hkErr; exact absurd hkErr (by simp)
        · exact absurd hEOF hne1
      · rw [if_neg hEOF] at h'
        rcases hrec : Lexer.tokensAux fuel s2 with _ | ts2
        · rw [hrec] at h'; exact absurd h' (by simp)
        · rw [hrec] at h'
          obtain rfl : t :: ts2 = ts := Option.some.injEq .. ▸ h'
          rcases next_token_step s t s2 hstep with ⟨hkEOF, _⟩ | ⟨hkErr, hs2err⟩ |
            ⟨hne1, hne2, ws, d, hwall, hdne, hrem, hpre, herr2, hstart, hstop⟩
          · exact absurd hkEOF hEOF
          · -- an error token: the tail is empty, so the error is last
            have hts2 : ts2 = [] := by
              rcases fuel with _ | fuel'
              · exact absurd hrec (by simp [Lexer.tokensAux])
              · rw [tokensAux_error fuel' s2 hs2err] at hrec
                exact (Option.some.injEq .. ▸ hrec).symm
            subst hts2
            refine ⟨?_, ?_, ?_⟩
            · intro u hu
              rcases List.mem_singleton.mp hu with rfl
              rw [hkErr]; simp
            · intro i hi _
              simp only [List.length_cons, List.length_nil] at hi ⊢
              omega
            · intro hnoerr
              exact absurd hkErr (hnoerr t (by simp))
          · -- an ordinary token followed by the rest of the sequence
            have hs2errF : s2.error = false := herr2.trans herr
            obtain ⟨ih1, ih2, ih3⟩ := ih s2 ts2 hs2errF hrec
            have hinput : s2.pre ++ s2.rem = s.pre ++ s.rem := by
              rw [hpre, hrem]
              simp [List.append_assoc]
            have hstop2 : t.pos.stop = byteLen s2.pre := by
              rw [hstop, hpre]
            refine ⟨?_, ?_, ?_⟩
            · intro u hu
              rcases List.mem_cons.mp hu with rfl | hu2
              · exact hne1
              · exact ih1 u hu2
            · intro i hi hkind
              rcases i with _ | j
              · exact absurd hkind hne2
              · have hj : j < ts2.length := by simpa using hi
                have := ih2 j hj (by simpa using hkind)
                have hlen : 1 ≤ ts2.length := by omega
                simp only [List.length_cons]
                omega
            · intro hnoerr
              have hnoerr2 : ∀ u ∈ ts2, u.kind ≠ .Error :=
                fun u hu => hnoerr u (List.mem_cons_of_mem _ hu)
              obtain ⟨ihR, ihB, ihC⟩ := ih3 hnoerr2
              have hstartval : t.pos.start = byteLen s.pre + byteLen ws := by
                rw [hstart, byteLen_append]
              have hstopval : t.pos.stop = byteLen s.pre + byteLen ws + byteLen d := by
                rw [hstop, byteLen_append, byteLen_append]
                omega
              have hdpos : 0 < byteLen d := byteLen_pos hdne
              refine ⟨?_, ?_, ?_⟩
              · -- ordered ranges
                refine ⟨by omega, by omega, ?_⟩
                rw [← hstop2] at ihR
                exact ihR
              · -- ranges stay within the input span
                intro u hu
                rcases List.mem_cons.mp hu with rfl | hu2
                · rw [hstop2, ← hinput, byteLen_append]
                  omega
                · rw [← hinput]
                  exact ihB u hu2
              · -- uncovered bytes are whitespace
                intro p hp1 hp2 hcov
                rw [covered, List.any_cons, Bool.or_eq_false_iff] at hcov
                obtain ⟨hcov1, hcov2⟩ := hcov
                rcases Nat.lt_or_ge p t.pos.start with hplt | hpge
                · -- inside the skipped whitespace run
                  have hmem : byteAt (s.pre ++ s.rem) p ∈ ws := by
                    rw [hrem]
                    exact byteAt_middle_mem s.pre ws (d ++ s2.rem) p hp1 (by omega)
                  exact hwall _ hmem
                · rcases Nat.lt_or_ge p t.pos.stop with hplt2 | hpge2
                  · -- covered by the token itself: contradiction
                    exfalso
                    simp only [Bool.and_eq_false_iff] at hcov1
                    rcases hcov1 with hc1 | hc1 <;> simp at hc1 <;> omega
                  · -- handled by the induction hypothesis
                    have := ihC p (by omega) (by rw [hinput]; exact hp2)
                      (by exact hcov2)
                    rw [hinput] at this
                    exact this

/-- Leading bound and nonemptiness of ordered ranges. -/
theorem rangesFrom_le (lo : Nat) (ts : List Token) (h : RangesFrom lo ts) :
    ∀ t ∈ ts, lo ≤ t.pos.start ∧ t.pos.start < t.pos.stop := by
  induction ts generalizing lo with
  | nil => simp
  | cons t ts ihs =>
    obtain ⟨h1, h2, h3⟩ := h
    intro u hu
    rcases List.mem_cons.mp hu with rfl | hu2
    · exact ⟨h1, h2⟩
    · obtain ⟨h4, h5⟩ := ihs t.pos.stop h3 u hu2
      exact ⟨by omega, h5⟩

/-- Ordered ranges are pairwise disjoint with strictly increasing starts. -/
theorem rangesFrom_pairwise (lo : Nat) (ts : List Token) (h : RangesFrom lo ts) :
    List.Pairwise (fun a b => a.pos.stop ≤ b.pos.start ∧ a.pos.start < b.pos.start) ts := by
  induction ts generalizing lo with
  | nil => exact List.Pairwise.nil
  | cons t ts ihs =>
    obtain ⟨h1, h2, h3⟩ := h
    refine List.Pairwise.cons ?_ (ihs t.pos.stop h3)
    intro u hu
    obtain ⟨h4, h5⟩ := rangesFrom_le t.pos.stop ts h3 u hu
    exact ⟨h4, by omega⟩

/-! Auxiliary lemmas about the parser. -/

/-- `f` succeeds (no out-of-bounds read) whenever the cursor is in bounds, and
moves the cursor at most one step, keeping the token vector. -/
theorem f_spec (p : Parser) (hlt : p.pos < p.tokens.length) :
    ∃ res p', p.f = some (res, p') ∧ p'.tokens = p.tokens ∧
      p.pos ≤ p'.pos ∧ p'.pos ≤ p.pos + 1 := by
  have hpk : p.peek = some (p.tokens.get ⟨p.pos, hlt⟩).kind := by
    simp [Parser.peek, List.getElem?_eq_getElem hlt]
  rw [Parser.f, hpk]
  cases hkind : (p.tokens.get ⟨p.pos, hlt⟩).kind <;>
    exact ⟨_, _, rfl, rfl,
      by first | (simp only [Parser.advance]; omega) | omega,
      by first | (simp only [Parser.advance]; omega) | omega⟩

/-- The iteration of `t_rest` never reads out of bounds when the cursor is in
bounds and the last token is not `Times`: each `Times` found strictly before
the last token leaves the following `f` in bounds. -/
theorem t_restAux_some (fuel : Nat) (p : Parser) (left : Expr)
    (hle : p.pos ≤ p.tokens.length)
    (hfuel : p.tokens.length < p.pos + fuel)
    (hlast : ∀ tk ∈ p.tokens.getLast?, tk.kind ≠ .Times) :
    ∃ r, Parser.t_restAux fuel p left = some r := by
  induction fuel generalizing p left with
  | zero => omega
  | succ fuel ih =>
    rw [Parser.t_restAux]
    by_cases heof : p.is_eof
    · rw [if_pos heof]
      exact ⟨_, rfl⟩
    · rw [if_neg heof]
      have hlt : p.pos < p.tokens.length := by
        simp [Parser.is_eof] at heof
        omega
      have hpk : p.peek = some (p.tokens.get ⟨p.pos, hlt⟩).kind := by
        simp [Parser.peek, List.getElem?_eq_getElem hlt]
      have hpos : p.tok_pos = some (p.tokens.get ⟨p.pos, hlt⟩).pos := by
        simp [Parser.tok_pos, List.getElem?_eq_getElem hlt]
      cases hkind : (p.tokens.get ⟨p.pos, hlt⟩).kind
      all_goals simp only [hpk, hkind]
      all_goals try exact ⟨_, rfl⟩
      · -- the `Times` arm: consume the operator and parse the next factor
        have hppos : p.pos + 1 < p.tokens.length := by
          rcases Nat.lt_or_ge (p.pos + 1) p.tokens.length with hgood | hbad
          · exact hgood
          · exfalso
            have hpe : p.pos = p.tokens.length - 1 := by omega
            have hlastp : p.tokens.getLast? = some (p.tokens.get ⟨p.pos, hlt⟩) := by
              rw [List.getLast?_eq_getElem?, ← hpe]
              exact List.getElem?_eq_getElem hlt
            exact hlast _ hlastp hkind
        simp only [hpos]
        obtain ⟨res, p2, hf, htok2, hge, hle2⟩ := f_spec p.advance
          (by simpa [Parser.advance] using hppos)
        simp only [Parser.advance] at hge hle2 htok2
        cases res with
        | error e => simp only [hf]; exact ⟨_, rfl⟩
        | ok right =>
          simp only [hf]
          exact ih p2 _ (by rw [htok2]; omega) (by rw [htok2]; omega)
            (by rw [htok2]; exact hlast)

/-! Auxiliary lemmas about the interner. -/

theorem lookupIdx_some (name : String) (l : List String) (i : Nat)
    (h : lookupIdx name l = some i) : l[i]? = some name := by
  induction l generalizing i with
  | nil => simp [lookupIdx] at h
  | cons x rest ih =>
    rw [lookupIdx] at h
    by_cases hx : x = name
    · rw [if_pos hx] at h
      obtain rfl : 0 = i := Option.some.injEq .. ▸ h
      simp [hx]
    · rw [if_neg hx] at h
      rcases hj : lookupIdx name rest with _ | j
      · rw [hj] at h; exact absurd h (by simp)
      · rw [hj] at h
        obtain rfl : j + 1 = i := by simpa using h
        simpa using ih j hj

theorem lookupIdx_lt (name : String) (l : List String) (i : Nat)
    (h : lookupIdx name l = some i) : i < l.length := by
  induction l generalizing i with
  | nil => simp [lookupIdx] at h
  | cons x rest ih =>
    rw [lookupIdx] at h
    by_cases hx : x = name
    · rw [if_pos hx] at h
      obtain rfl : 0 = i := Option.some.injEq .. ▸ h
      simp
    · rw [if_neg hx] at h
      rcases hj : lookupIdx name rest with _ | j
      · rw [hj] at h; exact absurd h (by simp)
      · rw [hj] at h
        obtain rfl : j + 1 = i := by simpa using h
        have := ih j hj
        simp
        omega

theorem lookupIdx_append_self (name : String) (l : List String)
    (h : lookupIdx name l = none) : lookupIdx name (l ++ [name]) = some l.length := by
  induction l with
  | nil => simp [lookupIdx]
  | cons x rest ih =>
    rw [lookupIdx] at h
    by_cases hx : x = name
    · rw [if_pos hx] at h; exact absurd h (by simp)
    · rw [if_neg hx] at h
      rcases hj : lookupIdx name rest with _ | j
      · rw [List.cons_append, lookupIdx, if_neg hx, ih hj]
        simp
      · rw [hj] at h; exact absurd h (by simp)

/-- After interning, the handle indexes the canonical copy of the text. -/
theorem symbol_get (t : Interner) (s : String) :
    ((t.symbol s).2).names[((t.symbol s).1).idx]? = some s := by
  rw [Interner.symbol]
  rcases hl : lookupIdx s t.names with _ | i
  · exact List.getElem?_concat_length t.names s
  · exact lookupIdx_some s t.names i hl

/-- Interning only ever appends to the `names` table. -/
theorem symbol_extends (t : Interner) (s : String) :
    ((t.symbol s).2).names = t.names ∨ ((t.symbol s).2).names = t.names ++ [s] := by
  rw [Interner.symbol]
  rcases hl : lookupIdx s t.names with _ | i
  · exact Or.inr rfl
  · exact Or.inl rfl

/-- A found lookup leaves the interner unchanged. -/
theorem symbol_eq_of_found (t : Interner) (s : String) (i : Nat)
    (hl : lookupIdx s t.names = some i) : t.symbol s = (⟨i⟩, t) := by
  rw [Interner.symbol, hl]

/-- A fresh text is appended and handed the next index. -/
theorem symbol_eq_of_fresh (t : Interner) (s : String)
    (hl : lookupIdx s t.names = none) :
    t.symbol s = (⟨t.names.length⟩, ⟨t.names ++ [s]⟩) := by
  rw [Interner.symbol, hl]

/-- Re-interning the same text yields the same handle. -/
theorem symbol_idem (t : Interner) (s : String) :
    (((t.symbol s).2).symbol s).1 = (t.symbol s).1 := by
  rcases hl : lookupIdx s t.names with _ | i
  · rw [symbol_eq_of_fresh t s hl]
    rw [symbol_eq_of_found _ s t.names.length (lookupIdx_append_self s t.names hl)]
  · rw [symbol_eq_of_found t s i hl]
    show (t.symbol s).1 = (⟨i⟩ : Symbol)
    rw [symbol_eq_of_found t s i hl]

/-! Theorems for the claims. -/

/-- Claim C1 (code bug): the specification requires integer-literal overflow
to be a `LexError`, "not undefined behavior or a crash", but `scan_number`
parses with `parse::<i32>().unwrap()`, which panics on overflow (`none` in
the embedding).  `2147483648 = i32::MAX + 1` panics; the maximal in-range
literal `2147483647` still lexes to a `Num` token. -/
theorem lexer_overflow_panics :
    lex ("2147483648".toList) = none ∧
    lex ("2147483647".toList) = some [⟨.Num 2147483647, ⟨0, 10⟩⟩] :=
  ⟨rfl, rfl⟩

/-- Claim C2: with one interner, the handles of interned texts coincide
exactly when the texts are equal as content (Lean strings are values, so
content equality is the only equality: which buffer backed the Rust `&str`
has no observable counterpart), and `name` recovers the text from its
handle — starting from any interner state, hence under any interleaving of
prior `symbol` calls. -/
theorem interner_correct (t : Interner) (s1 s2 : String) :
    ((t.symbol s1).1 = (((t.symbol s1).2).symbol s2).1 ↔ s1 = s2) ∧
    ((t.symbol s1).2).name (t.symbol s1).1 = some s1 ∧
    ((((t.symbol s1).2).symbol s2).2).name (t.symbol s1).1 = some s1 ∧
    ((((t.symbol s1).2).symbol s2).2).name (((t.symbol s1).2).symbol s2).1 = some s2 := by
  have hg1 := symbol_get t s1
  have hg2 := symbol_get (t.symbol s1).2 s2
  have hext := symbol_extends (t.symbol s1).2 s2
  have hlt1 : ((t.symbol s1).1).idx < ((t.symbol s1).2).names.length := by
    by_contra hge
    rw [List.getElem?_eq_none (by omega)] at hg1
    exact absurd hg1 (by simp)
  have hg1' : ((((t.symbol s1).2).symbol s2).2).names[((t.symbol s1).1).idx]? = some s1 := by
    rcases hext with he | he
    · rw [he]; exact hg1
    · rw [he, List.getElem?_append_left hlt1]; exact hg1
  refine ⟨⟨?_, ?_⟩, hg1, hg1', hg2⟩
  · intro he
    rw [he] at hg1'
    rw [hg2] at hg1'
    exact (Option.some.injEq .. ▸ hg1').symm
  · rintro rfl
    exact (symbol_idem t s1).symm

/-- Claim C3, counterexample: lexing the unterminated string `"abc` yields its
single error token at the end-of-input position `[4, 5)`, not at the opening
quote (byte 0) as the claim states. -/
theorem unterminated_string_position_cex :
    lex ("\"abc".toList) = some [⟨.Error, ⟨4, 5⟩⟩] ∧
    (⟨(.Error : TokenKind), (⟨4, 5⟩ : TokenPos)⟩ : Token).pos.start ≠ 0 :=
  ⟨rfl, by decide⟩

/-- Claim C3, amended: from any non-failed lexer state whose remaining input
is a string literal that reaches end of input before an unescaped closing
quote, the token sequence is exactly one error token, positioned at the
end-of-input byte offset `[len, len+1)`, and no further tokens follow. -/
theorem unterminated_string_amended (pre rest : List Char)
    (h3 : unterminated '"' rest = true) :
    Lexer.tokens ⟨pre, '"' :: rest, false⟩ =
      some [⟨.Error, ⟨byteLen (pre ++ '"' :: rest), byteLen (pre ++ '"' :: rest) + 1⟩⟩] := by
  have hws : isWs '"' = false := by decide
  have hfix : scanWhile isWs ('"' :: rest) = ([], '"' :: rest) := by
    simp [scanWhile, hws]
  have hloop := scanQuoteLoop_of_unterminated '"' rest h3
  have hnt : Lexer.next_token ⟨pre, '"' :: rest, false⟩ =
      some (⟨.Error, ⟨byteLen (pre ++ '"' :: rest), byteLen (pre ++ '"' :: rest) + 1⟩⟩,
            ⟨pre ++ '"' :: rest, [], true⟩) := by
    simp [Lexer.next_token, Lexer.scan_whitespace, hfix, Lexer.is_at_end, Lexer.c,
          Lexer.scan_quote, Lexer.scan_char, hloop, Lexer.error_token, Lexer.ci,
          List.append_assoc]
  rw [Lexer.tokens]
  show Lexer.tokensAux (rest.length + 1 + 1) _ = _
  rw [Lexer.tokensAux]
  simp [hnt, tokensAux_error rest.length ⟨pre ++ '"' :: rest, [], true⟩ rfl]

/-- Witness for C3 at the input `"ab` (an unterminated string filling the
whole input): one error token at the end-of-input range `[3, 4)`. -/
theorem unterminated_string_amended_witness :
    unterminated '"' ['a', 'b'] = true ∧
    Lexer.tokens ⟨[], '"' :: ['a', 'b'], false⟩ = some [⟨.Error, ⟨3, 4⟩⟩] :=
  ⟨by decide, unterminated_string_amended [] ['a', 'b'] (by decide)⟩

/-- Claim C4, counterexample: after the unterminated-string error of input
`"` (error token at `[1, 2)`), the next call to `next_token` returns `EOF`
at `[1, 1)` — not an error token at the same position. -/
theorem error_then_eof_cex :
    (Lexer.new ['"']).next_token = some (⟨.Error, ⟨1, 2⟩⟩, ⟨['"'], [], true⟩) ∧
    Lexer.next_token ⟨['"'], [], true⟩ = some (⟨.EOF, ⟨1, 1⟩⟩, ⟨['"'], [], true⟩) ∧
    (⟨(.EOF : TokenKind), (⟨1, 1⟩ : TokenPos)⟩ : Token).kind ≠ .Error :=
  ⟨rfl, rfl, by decide⟩

/-- Claim C4, amended: the lazy token sequence never yields `EOF` and yields
nothing after the first error token (an error token can only be its last
item); and when an error token is produced at a position strictly before the
end of input (an illegal character, where the cursor is not advanced), every
subsequent `next_token` call returns the identical error token at the same
position.  (The counterexample shows that after an error produced at end of
input — an unterminated string — `next_token` returns `EOF` instead.) -/
theorem lexer_error_terminal :
    (∀ (cs : List Char) (ts : List Token), lex cs = some ts →
       (∀ t ∈ ts, t.kind ≠ .EOF) ∧
       (∀ i, (hi : i < ts.length) → (ts.get ⟨i, hi⟩).kind = .Error → i = ts.length - 1)) ∧
    (∀ (s : Lexer) (t : Token) (s' : Lexer),
       s.next_token = some (t, s') → t.kind = .Error → s'.rem ≠ [] →
       s'.next_token = some (t, s')) := by
  constructor
  · intro cs ts h
    have h' : Lexer.tokensAux (cs.length + 1) (Lexer.new cs) = some ts := h
    have := tokensAux_inv (cs.length + 1) (Lexer.new cs) ts rfl h'
    exact ⟨this.1, this.2.1⟩
  · exact next_token_error_repeat

/-- Witness for C4 at the input `~`: the sequence is the single error token
(not `EOF`), and re-calling `next_token` after the illegal-character error
reproduces the same token at the same position. -/
theorem lexer_error_terminal_witness :
    lex ['~'] = some [⟨.Error, ⟨0, 1⟩⟩] ∧
    (⟨(.Error : TokenKind), (⟨0, 1⟩ : TokenPos)⟩ : Token).kind ≠ .EOF ∧
    (Lexer.new ['~']).next_token = some (⟨.Error, ⟨0, 1⟩⟩, ⟨[], ['~'], true⟩) ∧
    Lexer.next_token ⟨[], ['~'], true⟩ = some (⟨.Error, ⟨0, 1⟩⟩, ⟨[], ['~'], true⟩) :=
  ⟨rfl,
   (lexer_error_terminal.1 ['~'] [⟨.Error, ⟨0, 1⟩⟩] rfl).1 _ (by simp),
   rfl,
   lexer_error_terminal.2 ⟨[], ['~'], false⟩ _ _ rfl rfl (by simp)⟩

/-- Claim C5, counterexample: parsing `)` and parsing ` )` (same token, byte
positions `[0, 1)` and `[1, 2)` respectively) produce the very same
`ParseError` value — `UnexpectedToken` carries only the description and the
token kind, so the error cannot carry the token's exact position. -/
theorem parse_error_position_cex :
    lex (")".toList) = some [⟨.RightParen, ⟨0, 1⟩⟩] ∧
    lex (" )".toList) = some [⟨.RightParen, ⟨1, 2⟩⟩] ∧
    (parseInput (")".toList)).map Prod.fst =
      some (.error (.UnexpectedToken "an arithmetic expression" .RightParen)) ∧
    (parseInput (" )".toList)).map Prod.fst =
      some (.error (.UnexpectedToken "an arithmetic expression" .RightParen)) :=
  ⟨rfl, rfl, rfl, rfl⟩

/-- Claim C5, amended: parsing `)` alone fails with an unexpected-token error
whose expected-description names the missing construct ("an arithmetic
expression") and whose actual kind is the right parenthesis; the error value
does not carry the token's position. -/
theorem parse_rparen_amended :
    (parseInput (")".toList)).map Prod.fst =
      some (.error (.UnexpectedToken "an arithmetic expression" .RightParen)) :=
  rfl

/-- Claim C6: `3*4` parses to one multiplication node with the integer
operands, and `3*4*5` folds left: `(3*4)*5`, not `3*(4*5)`. -/
theorem parse_products_left_assoc :
    (parseInput ("3*4".toList)).map Prod.fst =
      some (.ok (.BinOp (.Int 3) .Times (.Int 4) ⟨1, 2⟩)) ∧
    (parseInput ("3*4*5".toList)).map Prod.fst =
      some (.ok (.BinOp (.BinOp (.Int 3) .Times (.Int 4) ⟨1, 2⟩) .Times (.Int 5) ⟨3, 4⟩)) :=
  ⟨rfl, rfl⟩

/-- Claim C7: maximal munch for the two-character operators — `:=`, `<=`,
`<>`, `>=` each lex to one two-character token, and `<` followed by any
character other than `=` or `>` lexes to `LT` at `[0, 1)`. -/
theorem maximal_munch :
    lex (":=".toList) = some [⟨.ColonEquals, ⟨0, 2⟩⟩] ∧
    lex ("<=".toList) = some [⟨.LE, ⟨0, 2⟩⟩] ∧
    lex ("<>".toList) = some [⟨.NotEquals, ⟨0, 2⟩⟩] ∧
    lex (">=".toList) = some [⟨.GE, ⟨0, 2⟩⟩] ∧
    (∀ (ch : Char) (cs : List Char), ch ≠ '=' → ch ≠ '>' →
      (Lexer.new ('<' :: ch :: cs)).next_token =
        some (⟨.LT, ⟨0, 1⟩⟩, ⟨['<'], ch :: cs, false⟩)) := by
  refine ⟨rfl, rfl, rfl, rfl, ?_⟩
  intro ch cs h1 h2
  have hws : isWs '<' = false := by decide
  have hfix : scanWhile isWs ('<' :: ch :: cs) = ([], '<' :: ch :: cs) := by
    simp [scanWhile, hws]
  simp [Lexer.next_token, Lexer.new, Lexer.scan_whitespace, hfix, Lexer.is_at_end, Lexer.c,
        Lexer.symbolKind, Lexer.peek, h1, h2, Lexer.scan_char, Lexer.ci, byteLen, charSize]

/-- Witness for C7 at `ch = 'a'`. -/
theorem maximal_munch_witness :
    ('a' ≠ '=') ∧ ('a' ≠ '>') ∧
    (Lexer.new ('<' :: 'a' :: [])).next_token =
      some (⟨.LT, ⟨0, 1⟩⟩, ⟨['<'], ['a'], false⟩) :=
  ⟨by decide, by decide, maximal_munch.2.2.2.2 'a' [] (by decide) (by decide)⟩

/-- Claim C8, counterexample: the input `" "` (a string literal containing a
space) lexes without error to one `String` token covering `[0, 3)`; byte 1
is a whitespace byte of the input, yet it is covered by the token — so the
ranges do not cover *exactly* the non-whitespace bytes. -/
theorem token_coverage_cex :
    lex ("\" \"".toList) = some [⟨.String " ", ⟨0, 3⟩⟩] ∧
    (∀ t ∈ [(⟨.String " ", ⟨0, 3⟩⟩ : Token)], t.kind ≠ .Error) ∧
    covered [(⟨.String " ", ⟨0, 3⟩⟩ : Token)] 1 = true ∧
    isWs (byteAt ("\" \"".toList) 1) = true :=
  ⟨rfl, by decide, rfl, rfl⟩

/-- Claim C8, amended: for every input that lexes without error, the token
ranges are pairwise disjoint with strictly increasing starts, each is a
nonempty range within the input's byte span, and every byte *not* covered by
any token is whitespace (equivalently, the ranges cover all non-whitespace
bytes; they may additionally cover whitespace inside string literals). -/
theorem token_ranges_amended (cs : List Char) (ts : List Token)
    (h : lex cs = some ts) (hne : ∀ t ∈ ts, t.kind ≠ .Error) :
    List.Pairwise (fun a b => a.pos.stop ≤ b.pos.start ∧ a.pos.start < b.pos.start) ts ∧
    (∀ t ∈ ts, t.pos.start < t.pos.stop ∧ t.pos.stop ≤ byteLen cs) ∧
    (∀ p, p < byteLen cs → covered ts p = false → isWs (byteAt cs p) = true) := by
  have h' : Lexer.tokensAux (cs.length + 1) (Lexer.new cs) = some ts := h
  obtain ⟨_, _, h3⟩ := tokensAux_inv (cs.length + 1) (Lexer.new cs) ts rfl h'
  obtain ⟨hR, hB, hC⟩ := h3 hne
  refine ⟨rangesFrom_pairwise _ _ hR, ?_, ?_⟩
  · intro t ht
    exact ⟨(rangesFrom_le _ _ hR t ht).2, hB t ht⟩
  · intro p hp hcov
    exact hC p (Nat.zero_le p) hp hcov

/-- Witness for C8 at the input `a b`. -/
theorem token_ranges_amended_witness :
    lex ("a b".toList) = some [⟨.Id "a", ⟨0, 1⟩⟩, ⟨.Id "b", ⟨2, 3⟩⟩] ∧
    (∀ t ∈ [(⟨.Id "a", ⟨0, 1⟩⟩ : Token), ⟨.Id "b", ⟨2, 3⟩⟩], t.kind ≠ .Error) ∧
    List.Pairwise (fun a b => a.pos.stop ≤ b.pos.start ∧ a.pos.start < b.pos.start)
      [(⟨.Id "a", ⟨0, 1⟩⟩ : Token), ⟨.Id "b", ⟨2, 3⟩⟩] ∧
    isWs (byteAt ("a b".toList) 1) = true :=
  ⟨rfl, by decide,
   (token_ranges_amended ("a b".toList) _ rfl (by decide)).1,
   (token_ranges_amended ("a b".toList) _ rfl (by decide)).2.2 1 (by decide) (by decide)⟩

/-- Claim C9, counterexample: `Parser::parse` reads `tokens[pos]` out of
bounds (a panic, `none` in the embedding) on the empty token sequence, and
on a sequence ending immediately after a `Times` operator. -/
theorem parser_oob_cex :
    (Parser.new []).parse = none ∧
    (Parser.new [⟨.Num 3, ⟨0, 1⟩⟩, ⟨.Times, ⟨1, 2⟩⟩]).parse = none :=
  ⟨rfl, rfl⟩

/-- Claim C9, amended: for every *nonempty* token sequence whose last token
is not `Times`, `Parser::parse` returns a result — an expression or a
`ParseError` — and its token-cursor indexing stays in bounds (`none`, the
out-of-bounds panic, cannot occur).  The excluded cases (the empty sequence;
a trailing `Times`) do read out of bounds, as the counterexample shows. -/
theorem parser_total_amended (ts : List Token) (hne : ts ≠ [])
    (hlast : ∀ tk ∈ ts.getLast?, tk.kind ≠ .Times) :
    ∃ r, (Parser.new ts).parse = some r := by
  rw [Parser.parse, Parser.t]
  have hlt : 0 < ts.length := List.length_pos.mpr hne
  have hpk : (Parser.new ts).peek = some (ts.get ⟨0, hlt⟩).kind := by
    simp [Parser.peek, Parser.new, List.getElem?_eq_getElem hlt]
  have hp0 : (Parser.new ts).pos = 0 := rfl
  cases hkind : (ts.get ⟨0, hlt⟩).kind
  all_goals simp only [hpk, hkind]
  all_goals try exact ⟨_, rfl⟩
  all_goals
    obtain ⟨res, p2, hf, htok2, hge, hle2⟩ := f_spec (Parser.new ts) hlt
    rw [hp0] at hge hle2
    have htok2' : p2.tokens = ts := htok2
    cases res with
    | error e => simp only [hf]; exact ⟨_, rfl⟩
    | ok right =>
      simp only [hf]
      rw [Parser.t_rest]
      exact t_restAux_some (p2.tokens.length + 1) p2 _
        (by rw [htok2']; omega) (by omega) (by rw [htok2']; exact hlast)

/-- Witness for C9 at the one-token sequence `[Num 3]`. -/
theorem parser_total_amended_witness :
    ([(⟨.Num 3, ⟨0, 1⟩⟩ : Token)] ≠ []) ∧
    (∃ r, (Parser.new [(⟨.Num 3, ⟨0, 1⟩⟩ : Token)]).parse = some r) :=
  ⟨by simp, parser_total_amended [⟨.Num 3, ⟨0, 1⟩⟩] (by simp)
    (by intro tk htk; simp at htk; subst htk; decide)⟩

/-- Claim C10: lexing is deterministic — it is a function of the input text
alone, so re-lexing equal input yields the identical token sequence (same
kinds and positions in the same order). -/
theorem lex_deterministic (cs1 cs2 : List Char) (h : cs1 = cs2) :
    lex cs1 = lex cs2 := by
  rw [h]

/-- Witness for C10 at the input `a*b`. -/
theorem lex_deterministic_witness :
    ("a*b".toList = "a*b".toList) ∧ lex ("a*b".toList) = lex ("a*b".toList) :=
  ⟨rfl, lex_deterministic ("a*b".toList) ("a*b".toList) rfl⟩

end Tgc
